import Mathlib

/-!
Verification of the on-duty scheduler engine
(`src/employee.py`, `src/calendar_utils.py`, `src/config.py`, `src/scheduler.py`).

Modelling conventions for the shallow embedding:

* A Python `datetime.date` is represented by its day number in the proleptic
  Gregorian calendar (days since 0000-03-01, the standard "days from civil"
  encoding).  `date + timedelta(days=1)` is `+ 1`, date comparison is the
  numeric order, and `date.weekday()` (Monday = 0 … Sunday = 6) is `pyWeekday`.
  ISO-format strings (`date.isoformat()`) are in order-preserving bijection
  with day numbers for all civil dates, so dictionary keys and sorted key
  lists over ISO strings are modelled by day numbers directly.
* Python dicts are association lists whose keys are unique; assignment to a
  present key replaces in place, assignment to a fresh key appends, matching
  CPython's insertion-ordered dicts.  Python sets whose only use is
  membership testing (`Employee.blocked_days`) are lists read through `∈`.
* Duty weights are the dyadic rationals 1, 3/2, 2, 1/2, 3; sums and
  differences of these are computed exactly by Python floats at every
  magnitude reached by the program, so `points` arithmetic is modelled in ℚ.
* A raised exception (`KeyError` from `self.counts[duty_type] += 1` on a
  missing key, `KeyError` from an absent dict key) is modelled by `none`
  propagating out of the computation.
-/

namespace OnDuty

/-! ### Calendar model (`datetime.date`, `calendar_utils.iter_month`) -/

abbrev Day := Nat

/-- Day number of a civil date (days since 0000-03-01, proleptic Gregorian);
the standard `days_from_civil` algorithm, restricted to years ≥ 1. -/
def daysFromCivil (y m d : Nat) : Nat :=
  let y2 := if m ≤ 2 then y - 1 else y
  let era := y2 / 400
  let yoe := y2 % 400
  let mp := if 2 < m then m - 3 else m + 9
  let doy := (153 * mp + 2) / 5 + d - 1
  let doe := yoe * 365 + yoe / 4 - yoe / 100 + doy
  era * 146097 + doe

/-- Python `date.weekday()`: Monday = 0 … Sunday = 6.
Day 719468 is 1970-01-01, a Thursday (= 3), and (719468 + 2) % 7 = 3. -/
def pyWeekday (n : Day) : Nat := (n + 2) % 7

def monthStart (y m : Nat) : Day := daysFromCivil y m 1

/-- First day of the following month, as in `iter_month` and
`Employee.prepare_for_month`: `date(year + (month==12), 1 if month==12 else month+1, 1)`. -/
def monthNext (y m : Nat) : Day :=
  if m = 12 then daysFromCivil (y + 1) 1 1 else daysFromCivil y (m + 1) 1

/-- `calendar_utils.iter_month`: all days d with first ≤ d < first-of-next-month. -/
def monthDays (y m : Nat) : List Day :=
  (List.range (monthNext y m - monthStart y m)).map (monthStart y m + ·)

/-! ### Dict helpers (Python `dict` on association lists) -/

/-- `d[k]`, returning `none` where Python raises `KeyError`. -/
def dictFind? [DecidableEq α] (k : α) : List (α × β) → Option β
  | [] => none
  | q :: rest => if q.1 = k then some q.2 else dictFind? k rest

/-- `d[k] = v`: replace in place if the key is present, append otherwise. -/
def dictInsert [DecidableEq α] (k : α) (v : β) : List (α × β) → List (α × β)
  | [] => [(k, v)]
  | q :: rest => if q.1 = k then (k, v) :: rest else q :: dictInsert k v rest

/-- `del d[k]`: drop the (first) entry with the given key. -/
def dictErase [DecidableEq α] (k : α) : List (α × β) → List (α × β)
  | [] => []
  | q :: rest => if q.1 = k then rest else q :: dictErase k rest

/-- `d[k] = f(d[k])` (used for `sim[o] -= w` / `sim[u] += w`). -/
def dictAdjust [DecidableEq α] (f : β → β) (k : α) : List (α × β) → List (α × β)
  | [] => []
  | q :: rest => if q.1 = k then (q.1, f q.2) :: rest else q :: dictAdjust f k rest

/-- Python's stable `list.sort` / `sorted`, parametrised by a key comparison:
`le y x` says the new element `x` may be placed after the existing element `y`
(so ties keep their original order). -/
def insertSorted (le : α → α → Bool) (x : α) : List α → List α
  | [] => [x]
  | y :: ys => if le y x then y :: insertSorted le x ys else x :: y :: ys

def stableSort (le : α → α → Bool) (l : List α) : List α :=
  l.foldl (fun acc x => insertSorted le x acc) []

/-! ### Configuration (`config.py`) -/

def dWD : String := "WD"
def dTh : String := "Th"
def dWE : String := "WE"
def dB : String := "B"
def dHO : String := "HO"

/-- Duty weights from `config.WEIGHTS`. -/
def WEIGHTS : List (String × ℚ) :=
  [(dWD, 1), (dTh, 3 / 2), (dWE, 2), (dB, 1 / 2), (dHO, 3)]

/-- `WEIGHTS.get(duty, default)`. -/
def weightsGet (duty : String) (dflt : ℚ) : ℚ := (dictFind? duty WEIGHTS).getD dflt

def BALANCE_TOLERANCE : ℚ := 1 / 10

/-- `config.COMPANY_WEEKENDS = ["2025-11-16"]`. -/
def COMPANY_WEEKENDS : List Day := [daysFromCivil 2025 11 16]

/-! ### Duty classification (`calendar_utils.classify_duty`)

The holiday manager is abstracted by the list of its holiday dates:
`holiday_manager.is_holiday(date_str)` is truthy exactly when the date is in
the loaded holiday list. -/

def classifyDuty (holidays : List Day) (d : Day) : String :=
  if d ∈ holidays then dHO
  else if d ∈ COMPANY_WEEKENDS then dWE
  else if pyWeekday d = 3 then dTh
  else if pyWeekday d = 4 ∨ pyWeekday d = 5 then dWE
  else dWD

/-! ### Employee (`employee.py`) -/

structure Employee where
  name : String
  email : String
  country : String
  observes_sabbath : Bool
  position_percentage : Int
  raw_blocked_days : List Day
  raw_blocked_ranges : List (Option Day × Option Day)
  blocked_days : List Day
  assignments : List (Day × String)
  points : ℚ
  counts : List (String × Int)
deriving DecidableEq

/-- `Employee.__init__` runtime initialisation: note `counts` has no `"HO"` key. -/
def initCounts : List (String × Int) := [(dWD, 0), (dTh, 0), (dWE, 0), (dB, 0)]

/-- An employee as built by `Employee.__init__` with default arguments:
no blocked input, fresh runtime state. -/
def mkEmployee (name : String) : Employee :=
  { name := name
    email := ""
    country := "Israel"
    observes_sabbath := false
    position_percentage := 100
    raw_blocked_days := []
    raw_blocked_ranges := []
    blocked_days := []
    assignments := []
    points := 0
    counts := initCounts }

/-- `Employee.reset_runtime`. -/
def resetRuntime (e : Employee) : Employee :=
  { e with assignments := [], points := 0, counts := initCounts }

/-- `Employee.is_available`. -/
def isAvailable (e : Employee) (d : Day) : Bool :=
  decide (d ∉ e.blocked_days) && (dictFind? d e.assignments).isNone

/-- `self.counts[duty_type] += 1`; `none` models the `KeyError` raised when
`duty_type` is not a key of `counts`. -/
def countsIncr (duty : String) : List (String × Int) → Option (List (String × Int))
  | [] => none
  | q :: rest =>
    if q.1 = duty then some ((q.1, q.2 + 1) :: rest)
    else (countsIncr duty rest).map (q :: ·)

/-- `self.counts[old_duty] -= 1` from `Scheduler._perform_swap`. -/
def countsDecr (duty : String) : List (String × Int) → Option (List (String × Int))
  | [] => none
  | q :: rest =>
    if q.1 = duty then some ((q.1, q.2 - 1) :: rest)
    else (countsDecr duty rest).map (q :: ·)

/-- `Employee.add_assignment`:
```
self.assignments[date_str] = duty_type
self.counts[duty_type] += 1          # KeyError if duty_type not a key
self.points += float(WEIGHTS.get(duty_type, 0.0))
```
A raise aborts the whole scheduling run, so the partially mutated state is
never observed and the raise is modelled as `none`. -/
def addAssignment (e : Employee) (d : Day) (duty : String) : Option Employee :=
  match countsIncr duty e.counts with
  | none => none
  | some c =>
    some { e with
      assignments := dictInsert d duty e.assignments
      counts := c
      points := e.points + weightsGet duty 0 }

/-- Expansion of one well-formed blocked range after normalisation:
`cur = start; while cur <= end: add(cur); cur += timedelta(days=1)`. -/
def expandRange (s t : Day) : List Day := (List.range (t + 1 - s)).map (s + ·)

/-- The days contributed by one raw blocked-range entry in
`Employee.prepare_for_month`: malformed entries (a date that fails
`date.fromisoformat`, modelled `none`) are skipped by the `try/except`;
well-formed entries are normalised (`if end < start: start, end = end, start`)
and expanded inclusively. -/
def rangeDays : Option Day × Option Day → List Day
  | (some s, some t) => if t < s then expandRange t s else expandRange s t
  | _ => []

/-- The Friday/Saturday days of the target month that `prepare_for_month`
blocks when `observes_sabbath` is set. -/
def sabbathDays (y m : Nat) : List Day :=
  (monthDays y m).filter fun d => decide (pyWeekday d = 4) || decide (pyWeekday d = 5)

/-- `Employee.prepare_for_month`: the derived blocked set is the explicit raw
days, plus every day of every well-formed raw range, plus (if
`observes_sabbath`) the Fridays/Saturdays of the target month.  The Python
`set` is modelled as a list used only through membership. -/
def prepareForMonth (e : Employee) (year month : Nat) : Employee :=
  let withRanges :=
    e.raw_blocked_ranges.foldl (fun acc rng => acc ++ rangeDays rng) e.raw_blocked_days
  let finalSet :=
    if e.observes_sabbath then withRanges ++ sabbathDays year month else withRanges
  { e with blocked_days := finalSet }

/-! ### Scheduler (`scheduler.py`)

The scheduler's `self.employees` list is passed explicitly; in-place mutation
of one employee object is modelled by `updateEmp` (employee names are the
unique keys of the data model, so replacing by name is object identity).
`assign_month` writes a JSON file as a side effect; that I/O is out of the
engine's algorithmic path and is not modelled.  Exceptions propagate as
`none`. -/

abbrev DayRec := List (String × String)
abbrev Schedule := List (Day × DayRec)

/-- Replace the (unique) employee with this name, as Python's in-place
mutation of the shared object does. -/
def updateEmp (emps : List Employee) (e' : Employee) : List Employee :=
  emps.map fun e => if e.name = e'.name then e' else e

def findEmp (emps : List Employee) (n : String) : Option Employee :=
  emps.find? fun e => e.name = n

/-- `Scheduler._eligible`. -/
def eligible (emps : List Employee) (d : Day) : List Employee :=
  emps.filter (isAvailable · d)

/-- The simulated post-assignment population variance computed inside
`Scheduler._pick_best_for_balance` for one candidate (`e is cand` is name
identity, names being unique keys). Division by the population size is exact
in ℚ; Python divides floats, which agrees on every comparison the code makes
between identical-multiset simulations. -/
def simVar (allEmps : List Employee) (candName : String) (w : ℚ) : ℚ :=
  let tmp := allEmps.map fun e => e.points + if e.name = candName then w else 0
  let mean := tmp.sum / (tmp.length : ℚ)
  (tmp.map fun p => (p - mean) ^ 2).sum / (tmp.length : ℚ)

/-- The candidate scan of `_pick_best_for_balance`: starting from
`best = None, best_var = inf`, the first candidate always wins, after which
only a strictly smaller simulated variance replaces the incumbent. -/
def pickBestAux (allEmps : List Employee) (w : ℚ) :
    Employee → ℚ → List Employee → Employee
  | best, _, [] => best
  | best, bestVar, cand :: rest =>
    let var := simVar allEmps cand.name w
    if var < bestVar then pickBestAux allEmps w cand var rest
    else pickBestAux allEmps w best bestVar rest

/-- `Scheduler._pick_best_for_balance`.  On an empty candidate list the
Python `best or candidates[0]` would raise `IndexError`; the function is only
called with at least two candidates, and the empty case is modelled `none`. -/
def pickBestForBalance (allEmps : List Employee) (candidates : List Employee)
    (w : ℚ) : Option Employee :=
  match candidates with
  | [] => none
  | c :: cs => some (pickBestAux allEmps w c (simVar allEmps c.name w) cs)

/-- `Scheduler._pick_lowest_points`.  `at_min` always contains the pool
minimum (the tolerance is nonnegative), so Python's `at_min[0]` never raises
and is `head?`. -/
def pickLowestPoints (allEmps : List Employee) (candidates : List Employee)
    (dutyWeight : ℚ) (excludeNames : List String) : Option Employee :=
  let pool := candidates.filter fun e => decide (e.name ∉ excludeNames)
  match pool with
  | [] => none
  | p :: ps =>
    let minPoints := ps.foldl (fun acc e => min acc e.points) p.points
    let atMin := (p :: ps).filter fun e => decide (e.points ≤ minPoints + BALANCE_TOLERANCE)
    if 1 < atMin.length then pickBestForBalance allEmps atMin dutyWeight
    else atMin.head?

/-- One day of `Scheduler._initial_assignment`: classify the duty, pick and
update the primary, and for weekend duties pick and update a backup that
excludes the primary's name.  `cands` is a list of shared references, so the
backup selection sees the primary's updated points. -/
def assignDay (holidays : List Day) (emps : List Employee) (d : Day) :
    Option (DayRec × List Employee) :=
  let duty := classifyDuty holidays d
  let cands := eligible emps d
  let dutyWeight := weightsGet duty 1
  match pickLowestPoints emps cands dutyWeight [] with
  | none => some ([], emps)
  | some p =>
    match addAssignment p d duty with
    | none => none
    | some p' =>
      let emps1 := updateEmp emps p'
      let rec1 : DayRec := dictInsert duty p.name []
      if duty = dWE then
        let backupWeight := weightsGet dB (1 / 2)
        let cands1 := cands.map fun e => if e.name = p.name then p' else e
        match pickLowestPoints emps1 cands1 backupWeight [p.name] with
        | none => some (rec1, emps1)
        | some b =>
          match addAssignment b d dB with
          | none => none
          | some b' => some (dictInsert dB b.name rec1, updateEmp emps1 b')
      else some (rec1, emps1)

/-- One step of the `for d in iter_month(...)` loop of
`Scheduler._initial_assignment`.  `out[iso] = day_rec` always inserts a fresh
key (month days are distinct), so the dict insert appends. -/
def greedyStep (holidays : List Day) (acc : Option (Schedule × List Employee))
    (d : Day) : Option (Schedule × List Employee) :=
  match acc with
  | none => none
  | some se =>
    match assignDay holidays se.2 d with
    | none => none
    | some res => some (se.1 ++ [(d, res.1)], res.2)

/-- `Scheduler._initial_assignment`: fold `assignDay` over the month's days. -/
def initialAssignment (holidays : List Day) (emps : List Employee) (y m : Nat) :
    Option (Schedule × List Employee) :=
  (monthDays y m).foldl (greedyStep holidays) (some ([], emps))

/-! #### Balancing phase (`Scheduler._optimize_balance`, `_perform_swap`) -/

/-- The `mean` helper of `_optimize_balance`. -/
def listMean (vals : List ℚ) : ℚ :=
  if vals.length = 0 then 0 else vals.sum / (vals.length : ℚ)

/-- The `sse` helper of `_optimize_balance` (sum of squared deviations from
the mean, not divided by the population size). -/
def sse (pts : List (String × ℚ)) : ℚ :=
  let m := listMean (pts.map Prod.snd)
  ((pts.map Prod.snd).map fun p => (p - m) ^ 2).sum

/-- The `month_points` helper: points accumulated since the `start_pts`
snapshot taken at the start of the balancing phase. -/
def monthPoints (emps : List Employee) (startPts : List (String × ℚ)) :
    List (String × ℚ) :=
  emps.map fun e => (e.name, e.points - (dictFind? e.name startPts).getD 0)

def ptsOf (pts : List (String × ℚ)) (n : String) : ℚ := (dictFind? n pts).getD 0

def schedGet (sched : Schedule) (d : Day) : DayRec := (dictFind? d sched).getD []

/-- The `feasible` helper of `_optimize_balance` (its `duty` argument is
unused in the source as well): the target is not blocked that day, holds no
duty in the schedule that day, and has no runtime assignment that day. -/
def feasible (blocked : List (String × List Day)) (emps : List Employee)
    (sched : Schedule) (day : Day) (toName : String) : Bool :=
  decide (day ∉ (dictFind? toName blocked).getD []) &&
  decide (toName ∉ (schedGet sched day).map Prod.snd) &&
  (match findEmp emps toName with
   | some t => (dictFind? day t.assignments).isNone
   | none => true)

/-- The `holdings` helper: this employee's (day, duty, weight) entries of the
schedule, heaviest first (stable descending sort). -/
def holdings (sched : Schedule) (days : List Day) (name : String) :
    List (Day × String × ℚ) :=
  let items := days.foldl
    (fun acc d =>
      (schedGet sched d).foldl
        (fun acc2 q =>
          if q.2 = name then acc2 ++ [(d, q.1, weightsGet q.1 0)] else acc2)
        acc)
    []
  stableSort (fun y x => x.2.2 ≤ y.2.2) items

/-- `sim = pts.copy(); sim[o] -= w; sim[u] += w`. -/
def simSwap (pts : List (String × ℚ)) (o u : String) (w : ℚ) :
    List (String × ℚ) :=
  dictAdjust (· + w) u (dictAdjust (· - w) o pts)

/-- The from-side of `Scheduler._perform_swap`: remove the runtime assignment
(if present), decrement its counter, subtract its weight. -/
def swapRemoveSide (e : Employee) (d : Day) : Option Employee :=
  match dictFind? d e.assignments with
  | none => some e
  | some oldDuty =>
    match countsDecr oldDuty e.counts with
    | none => none
    | some c =>
      some { e with
        assignments := dictErase d e.assignments
        counts := c
        points := e.points - weightsGet oldDuty 0 }

/-- The to-side of `Scheduler._perform_swap`: record the assignment,
increment its counter, add its weight. -/
def swapAddSide (e : Employee) (d : Day) (duty : String) : Option Employee :=
  match countsIncr duty e.counts with
  | none => none
  | some c =>
    some { e with
      assignments := dictInsert d duty e.assignments
      counts := c
      points := e.points + weightsGet duty 0 }

/-- `Scheduler._perform_swap`: update the schedule entry (`KeyError` if the
day is absent), then move the assignment from one employee to the other. -/
def performSwap (sched : Schedule) (d : Day) (duty : String)
    (fromE toE : Employee) : Option (Schedule × Employee × Employee) :=
  match dictFind? d sched with
  | none => none
  | some rec0 =>
    let sched' := dictInsert d (dictInsert duty toE.name rec0) sched
    match swapRemoveSide fromE d with
    | none => none
    | some fromE' =>
      match swapAddSide toE d duty with
      | none => none
      | some toE' => some (sched', fromE', toE')

/-- The best candidate move for one overloaded employee: scan their holdings
(heaviest first), and over the feasible underloaded targets track the move of
minimal simulated SSE delta (`if best is None or delta < best[0]`). -/
def obFindBest (pts : List (String × ℚ)) (baseSse : ℚ)
    (blocked : List (String × List Day)) (emps : List Employee)
    (sched : Schedule) (under : List String) (oName : String)
    (oHold : List (Day × String × ℚ)) : Option (ℚ × Day × String × String) :=
  oHold.foldl
    (fun best item =>
      let feas := under.filter fun u => feasible blocked emps sched item.1 u
      feas.foldl
        (fun best u =>
          let delta := sse (simSwap pts oName u item.2.2) - baseSse
          match best with
          | none => some (delta, item.1, item.2.1, u)
          | some b =>
            if delta < b.1 then some (delta, item.1, item.2.1, u) else some b)
        best)
    none

/-- Result of one scan over the overloaded employees: an exception, no
improving move (terminate), or exactly one executed swap (`break` and
re-evaluate). -/
inductive ObStep where
  | crash : ObStep
  | noSwap : ObStep
  | swapped (sched : Schedule) (emps : List Employee) : ObStep

/-- The `for o in over` loop body of `_optimize_balance`: apply the single
best strictly improving move of the first overloaded employee that has one. -/
def obScanOver (pts : List (String × ℚ)) (baseSse : ℚ)
    (blocked : List (String × List Day)) (days : List Day)
    (under : List String) (sched : Schedule) (emps : List Employee) :
    List String → ObStep
  | [] => ObStep.noSwap
  | o :: rest =>
    let oHold := holdings sched days o
    if oHold.isEmpty then obScanOver pts baseSse blocked days under sched emps rest
    else
      match obFindBest pts baseSse blocked emps sched under o oHold with
      | none => obScanOver pts baseSse blocked days under sched emps rest
      | some best =>
        if best.1 < 0 then
          match findEmp emps o, findEmp emps best.2.2.2 with
          | some f, some t =>
            match performSwap sched best.2.1 best.2.2.1 f t with
            | none => ObStep.crash
            | some r => ObStep.swapped r.1 (updateEmp (updateEmp emps r.2.1) r.2.2)
          | _, _ => ObStep.crash
        else obScanOver pts baseSse blocked days under sched emps rest

/-- The `for _ in range(max_iterations)` loop of `_optimize_balance`. -/
def obLoop (startPts : List (String × ℚ)) (blocked : List (String × List Day))
    (days : List Day) :
    Nat → Schedule → List Employee → Option (Schedule × List Employee)
  | 0, sched, emps => some (sched, emps)
  | fuel + 1, sched, emps =>
    let pts := monthPoints emps startPts
    if pts.isEmpty then some (sched, emps)
    else
      let avg := listMean (pts.map Prod.snd)
      let over0 := (pts.filter fun q => decide (avg + BALANCE_TOLERANCE < q.2)).map Prod.fst
      let under0 := (pts.filter fun q => decide (q.2 < avg - BALANCE_TOLERANCE)).map Prod.fst
      let ou :=
        if over0.isEmpty || under0.isEmpty then
          ((pts.filter fun q => decide (avg + BALANCE_TOLERANCE / 3 < q.2)).map Prod.fst,
           (pts.filter fun q => decide (q.2 < avg - BALANCE_TOLERANCE / 3)).map Prod.fst)
        else (over0, under0)
      if ou.1.isEmpty || ou.2.isEmpty then some (sched, emps)
      else
        let over := stableSort (fun y x => ptsOf pts x ≤ ptsOf pts y) ou.1
        let under := stableSort (fun y x => ptsOf pts y ≤ ptsOf pts x) ou.2
        match obScanOver pts (sse pts) blocked days under sched emps over with
        | ObStep.crash => none
        | ObStep.noSwap => some (sched, emps)
        | ObStep.swapped s' e' => obLoop startPts blocked days fuel s' e'

/-- `Scheduler._optimize_balance`: snapshot `start_pts` and the blocked sets,
sort the schedule's day keys, and iterate.  The `year`/`month` parameters are
unused in the source as well. -/
def optimizeBalance (emps : List Employee) (sched : Schedule)
    (_year _month maxIterations : Nat) : Option (Schedule × List Employee) :=
  let startPts := emps.map fun e => (e.name, e.points)
  let blocked := emps.map fun e => (e.name, e.blocked_days)
  let days := stableSort (fun y x => y ≤ x) (sched.map Prod.fst)
  obLoop startPts blocked days maxIterations sched emps

/-- `Scheduler.assign_month`: empty roster short-circuits to an empty
schedule; otherwise the greedy phase feeds the balancing phase (50
iterations).  The JSON dump is I/O outside the engine and is not modelled. -/
def assignMonth (holidays : List Day) (emps : List Employee) (y m : Nat) :
    Option (Schedule × List Employee) :=
  if emps.isEmpty then some ([], emps)
  else
    match initialAssignment holidays emps y m with
    | none => none
    | some r => optimizeBalance r.2 r.1 y m 50

/-! ### Specification-side quantities and operation model -/

/-- The total duty weight of an employee's current assignments map
(the spec's "sum of duty weights of all their current assignments"). -/
def sumWeights (asg : List (Day × String)) : ℚ :=
  (asg.map fun q => weightsGet q.2 0).sum

/-- Runtime-state well-formedness: points agree with the assignments map and
the map's keys are unique (a dict's keys always are). -/
def wfEmp (e : Employee) : Prop :=
  e.points = sumWeights e.assignments ∧ (e.assignments.map Prod.fst).Nodup

/-- The two employee-state mutations of a scheduling run: a greedy assignment
(`Employee.add_assignment` from `_initial_assignment`) and a balancing move
(`Scheduler._perform_swap` from `_optimize_balance`). -/
inductive SchedOp where
  | greedyAdd (name : String) (d : Day) (duty : String) : SchedOp
  | balanceMove (d : Day) (duty : String) (fromName toName : String) : SchedOp

/-- Apply one operation under the guards its call site establishes: the
greedy phase assigns only employees passing `is_available`, and the balancing
phase's `feasible` check requires the move's target to hold no runtime
assignment on the day (its remaining two conditions constrain the schedule,
not employee state).  A `none` stands for a call the scheduler never makes or
an exception. -/
def applyOp (emps : List Employee) : SchedOp → Option (List Employee)
  | SchedOp.greedyAdd n d duty =>
    match findEmp emps n with
    | none => none
    | some e =>
      if isAvailable e d then
        match addAssignment e d duty with
        | none => none
        | some e' => some (updateEmp emps e')
      else none
  | SchedOp.balanceMove d duty fromN toN =>
    match findEmp emps fromN with
    | none => none
    | some f =>
      match swapRemoveSide f d with
      | none => none
      | some f' =>
        let emps1 := updateEmp emps f'
        match findEmp emps1 toN with
        | none => none
        | some t =>
          if (dictFind? d t.assignments).isNone then
            match swapAddSide t d duty with
            | none => none
            | some t' => some (updateEmp emps1 t')
          else none

def applyOps (emps : List Employee) : List SchedOp → Option (List Employee)
  | [] => some emps
  | op :: rest =>
    match applyOp emps op with
    | none => none
    | some e' => applyOps e' rest

/-- The population's month-local workload variance: mean squared deviation of
the per-employee points deltas since the balancing phase's `start_pts`
snapshot. -/
def monthVariance (emps : List Employee) (startPts : List (String × ℚ)) : ℚ :=
  let vals := (monthPoints emps startPts).map Prod.snd
  listMean (vals.map fun p => (p - listMean vals) ^ 2)

/-- The month-relevant identity of an employee: name and derived blocked set,
both unchanged by every runtime mutation of a scheduling run. -/
def nameBlocked (e : Employee) : String × List Day := (e.name, e.blocked_days)

/-- The no-double-booking and blocked-day-exclusion facts about one schedule
entry, relative to the employee roster the month was built from. -/
def GoodRec (emps0 : List Employee) (p : Day × DayRec) : Prop :=
  (p.2.map Prod.snd).Nodup ∧
  ∀ q ∈ p.2, ∀ e ∈ emps0, q.2 = e.name → p.1 ∉ e.blocked_days

/-! ### Concrete inputs used to instantiate the theorems -/

def nameA : String := "A"
def nameB : String := "B"
def nameZoe : String := "Zoe"
def nameAmy : String := "Amy"

def empA : Employee := mkEmployee nameA
def empB : Employee := mkEmployee nameB
def empZoe : Employee := mkEmployee nameZoe
def empAmy : Employee := mkEmployee nameAmy

/-- A full run of February 2025 (no holidays) with the single employee `A`. -/
def demoOut : Schedule × List Employee :=
  (assignMonth [] [empA] 2025 2).getD ([], [])

/-- One greedy assignment to `A` followed by one balancing move to `B`. -/
def c3Roster : List Employee := [empA, empB]

def c3Ops : List SchedOp :=
  [SchedOp.greedyAdd nameA 100 dWD, SchedOp.balanceMove 100 dWD nameA nameB]

def c3Out : List Employee := (applyOps (c3Roster.map resetRuntime) c3Ops).getD []

def c3First : Employee := c3Out.head?.getD empA

/-- An employee with one explicit blocked day and one blocked range, both far
outside the target month. -/
def c10Emp : Employee :=
  { mkEmployee nameA with
    raw_blocked_days := [daysFromCivil 2024 6 5]
    raw_blocked_ranges := [(some (daysFromCivil 2024 7 10), some (daysFromCivil 2024 7 12))] }

/-! ## Lemmas: dictionaries -/

lemma dictFind?_eq_none_iff [DecidableEq α] {k : α} {l : List (α × β)} :
    dictFind? k l = none ↔ k ∉ l.map Prod.fst := by
  induction l with
  | nil => simp [dictFind?]
  | cons q rest ih =>
    unfold dictFind?
    by_cases h : q.1 = k
    · rw [if_pos h]
      simp [h]
    · rw [if_neg h, ih]
      simp only [List.map_cons, List.mem_cons]
      constructor
      · intro hk hor
        rcases hor with he | hm
        · exact h he.symm
        · exact hk hm
      · intro hk hm
        exact hk (Or.inr hm)

lemma sumWeights_cons (q : Day × String) (l : List (Day × String)) :
    sumWeights (q :: l) = weightsGet q.2 0 + sumWeights l := by
  simp [sumWeights]

lemma sumWeights_dictInsert {d : Day} {duty : String} {asg : List (Day × String)}
    (h : d ∉ asg.map Prod.fst) :
    sumWeights (dictInsert d duty asg) = sumWeights asg + weightsGet duty 0 := by
  induction asg with
  | nil => simp [dictInsert, sumWeights]
  | cons q rest ih =>
    simp only [List.map_cons, List.mem_cons] at h
    push_neg at h
    unfold dictInsert
    rw [if_neg fun he => h.1 he.symm]
    rw [sumWeights_cons, sumWeights_cons, ih h.2]
    ring

lemma mapFst_dictInsert {d : Day} {duty : String} {asg : List (Day × String)}
    (h : d ∉ asg.map Prod.fst) :
    (dictInsert d duty asg).map Prod.fst = asg.map Prod.fst ++ [d] := by
  induction asg with
  | nil => simp [dictInsert]
  | cons q rest ih =>
    simp only [List.map_cons, List.mem_cons] at h
    push_neg at h
    unfold dictInsert
    rw [if_neg fun he => h.1 he.symm]
    simp [ih h.2]

lemma dictErase_sublist [DecidableEq α] (k : α) (l : List (α × β)) :
    List.Sublist (dictErase k l) l := by
  induction l with
  | nil => simp [dictErase]
  | cons q rest ih =>
    unfold dictErase
    by_cases h : q.1 = k
    · rw [if_pos h]; exact List.sublist_cons_self q rest
    · rw [if_neg h]; exact List.Sublist.cons₂ q ih

lemma sumWeights_dictErase {d : Day} {duty : String} {asg : List (Day × String)}
    (h : dictFind? d asg = some duty) :
    sumWeights (dictErase d asg) = sumWeights asg - weightsGet duty 0 := by
  induction asg with
  | nil => simp [dictFind?] at h
  | cons q rest ih =>
    by_cases hq : q.1 = d
    · unfold dictFind? at h
      rw [if_pos hq] at h
      injection h with h
      unfold dictErase
      rw [if_pos hq, ← h, sumWeights_cons]
      ring
    · unfold dictFind? at h
      rw [if_neg hq] at h
      unfold dictErase
      rw [if_neg hq, sumWeights_cons, sumWeights_cons, ih h]
      ring

/-! ## Lemmas: employee-state mutations preserve well-formedness (claim C3) -/

lemma addAssignment_some {e e' : Employee} {d : Day} {duty : String}
    (h : addAssignment e d duty = some e') :
    e'.assignments = dictInsert d duty e.assignments ∧
    e'.points = e.points + weightsGet duty 0 ∧
    e'.name = e.name ∧ e'.blocked_days = e.blocked_days := by
  unfold addAssignment at h
  cases hc : countsIncr duty e.counts with
  | none => simp [hc] at h
  | some c =>
    simp only [hc] at h
    injection h with h
    rw [← h]
    exact ⟨rfl, rfl, rfl, rfl⟩

lemma swapAddSide_some {e e' : Employee} {d : Day} {duty : String}
    (h : swapAddSide e d duty = some e') :
    e'.assignments = dictInsert d duty e.assignments ∧
    e'.points = e.points + weightsGet duty 0 ∧
    e'.name = e.name ∧ e'.blocked_days = e.blocked_days := by
  unfold swapAddSide at h
  cases hc : countsIncr duty e.counts with
  | none => simp [hc] at h
  | some c =>
    simp only [hc] at h
    injection h with h
    rw [← h]
    exact ⟨rfl, rfl, rfl, rfl⟩

lemma isAvailable_not_assigned {e : Employee} {d : Day}
    (h : isAvailable e d = true) : dictFind? d e.assignments = none := by
  unfold isAvailable at h
  simp only [Bool.and_eq_true, Option.isNone_iff_eq_none] at h
  exact h.2

lemma isAvailable_not_blocked {e : Employee} {d : Day}
    (h : isAvailable e d = true) : d ∉ e.blocked_days := by
  unfold isAvailable at h
  simp only [Bool.and_eq_true, decide_eq_true_eq] at h
  exact h.1

lemma wf_addAssignment {e e' : Employee} {d : Day} {duty : String}
    (hav : dictFind? d e.assignments = none)
    (h : addAssignment e d duty = some e') (hw : wfEmp e) : wfEmp e' := by
  obtain ⟨ha, hp, _, _⟩ := addAssignment_some h
  have hk : d ∉ e.assignments.map Prod.fst := dictFind?_eq_none_iff.mp hav
  constructor
  · rw [hp, ha, sumWeights_dictInsert hk, hw.1]
  · rw [ha, mapFst_dictInsert hk]
    simp [List.nodup_append, hw.2, hk]

lemma wf_swapRemoveSide {e e' : Employee} {d : Day}
    (h : swapRemoveSide e d = some e') (hw : wfEmp e) : wfEmp e' := by
  unfold swapRemoveSide at h
  cases hf : dictFind? d e.assignments with
  | none =>
    simp only [hf] at h
    injection h with h
    rw [← h]; exact hw
  | some oldDuty =>
    simp only [hf] at h
    cases hc : countsDecr oldDuty e.counts with
    | none => simp [hc] at h
    | some c =>
      simp only [hc] at h
      injection h with h
      rw [← h]
      refine ⟨?_, ?_⟩
      · show e.points - weightsGet oldDuty 0 = sumWeights (dictErase d e.assignments)
        rw [sumWeights_dictErase hf, hw.1]
      · show ((dictErase d e.assignments).map Prod.fst).Nodup
        exact hw.2.sublist ((dictErase_sublist d e.assignments).map Prod.fst)

lemma wf_swapAddSide {e e' : Employee} {d : Day} {duty : String}
    (hav : dictFind? d e.assignments = none)
    (h : swapAddSide e d duty = some e') (hw : wfEmp e) : wfEmp e' := by
  obtain ⟨ha, hp, _, _⟩ := swapAddSide_some h
  have hk : d ∉ e.assignments.map Prod.fst := dictFind?_eq_none_iff.mp hav
  constructor
  · rw [hp, ha, sumWeights_dictInsert hk, hw.1]
  · rw [ha, mapFst_dictInsert hk]
    simp [List.nodup_append, hw.2, hk]

lemma wf_updateEmp {es : List Employee} {e' : Employee}
    (hall : ∀ x ∈ es, wfEmp x) (he : wfEmp e') :
    ∀ x ∈ updateEmp es e', wfEmp x := by
  intro x hx
  obtain ⟨y, hy, hxy⟩ := List.mem_map.mp hx
  by_cases h : y.name = e'.name
  · rw [if_pos h] at hxy; rw [← hxy]; exact he
  · rw [if_neg h] at hxy; rw [← hxy]; exact hall y hy

lemma wf_applyOp {es es' : List Employee} {op : SchedOp}
    (hall : ∀ x ∈ es, wfEmp x) (h : applyOp es op = some es') :
    ∀ x ∈ es', wfEmp x := by
  cases op with
  | greedyAdd n d duty =>
    unfold applyOp at h
    cases hfe : findEmp es n with
    | none => simp [hfe] at h
    | some e =>
      simp only [hfe] at h
      by_cases hav : isAvailable e d
      · rw [if_pos hav] at h
        cases hadd : addAssignment e d duty with
        | none => simp [hadd] at h
        | some e2 =>
          simp only [hadd] at h
          injection h with h
          rw [← h]
          exact wf_updateEmp hall
            (wf_addAssignment (isAvailable_not_assigned hav) hadd
              (hall e (List.mem_of_find?_eq_some hfe)))
      · rw [if_neg hav] at h; exact absurd h (by simp)
  | balanceMove d duty fromN toN =>
    unfold applyOp at h
    cases hff : findEmp es fromN with
    | none => simp [hff] at h
    | some f =>
      simp only [hff] at h
      cases hrm : swapRemoveSide f d with
      | none => simp [hrm] at h
      | some f' =>
        simp only [hrm] at h
        have hall1 : ∀ x ∈ updateEmp es f', wfEmp x :=
          wf_updateEmp hall
            (wf_swapRemoveSide hrm (hall f (List.mem_of_find?_eq_some hff)))
        cases hft : findEmp (updateEmp es f') toN with
        | none => simp [hft] at h
        | some t =>
          simp only [hft] at h
          by_cases hguard : (dictFind? d t.assignments).isNone
          · rw [if_pos hguard] at h
            cases hadd : swapAddSide t d duty with
            | none => simp [hadd] at h
            | some t' =>
              simp only [hadd] at h
              injection h with h
              rw [← h]
              exact wf_updateEmp hall1
                (wf_swapAddSide (Option.isNone_iff_eq_none.mp hguard) hadd
                  (hall1 t (List.mem_of_find?_eq_some hft)))
          · rw [if_neg hguard] at h; exact absurd h (by simp)

lemma wf_applyOps {es es' : List Employee} {ops : List SchedOp}
    (hall : ∀ x ∈ es, wfEmp x) (h : applyOps es ops = some es') :
    ∀ x ∈ es', wfEmp x := by
  induction ops generalizing es with
  | nil =>
    unfold applyOps at h
    injection h with h
    rw [← h]; exact hall
  | cons op rest ih =>
    unfold applyOps at h
    cases hop : applyOp es op with
    | none => rw [hop] at h; exact absurd h (by simp)
    | some e2 =>
      rw [hop] at h
      exact ih (wf_applyOp hall hop) h

/-! ## Claims C3, C9, C1 -/

/-- C3: for every employee, starting from reset runtime state, after any
sequence of greedy assignments (`add_assignment` under the greedy phase's
`is_available` guard) and balancing moves (`_perform_swap` under the
balancing phase's `feasible` guard), the employee's running workload score
equals the sum of the fixed weights of the duty types in their current
assignments map. -/
theorem weight_conservation (roster : List Employee) (ops : List SchedOp)
    (r : List Employee) (h : applyOps (roster.map resetRuntime) ops = some r) :
    ∀ e ∈ r, e.points = sumWeights e.assignments := by
  have h0 : ∀ x ∈ roster.map resetRuntime, wfEmp x := by
    intro x hx
    obtain ⟨y, _, rfl⟩ := List.mem_map.mp hx
    exact ⟨by simp [resetRuntime, sumWeights], by simp [resetRuntime]⟩
  exact fun e he => (wf_applyOps h0 h e he).1

/-- Witness for C3 at a concrete two-employee roster and a greedy assignment
followed by a balancing move. -/
theorem weight_conservation_witness :
    c3First.points = sumWeights c3First.assignments :=
  weight_conservation c3Roster c3Ops c3Out rfl c3First
    (by rw [show c3Out = c3First :: c3Out.tail from rfl]; exact List.mem_cons_self c3First c3Out.tail)

/-- C9: for every year, month and holiday configuration, an empty roster
yields an empty schedule and no exception. -/
theorem empty_roster_empty_schedule (holidays : List Day) (y m : Nat) :
    assignMonth holidays [] y m = some ([], []) := rfl

/-- C1: contrary to the claim, `assign_month` raises on this legitimate
input: on a month containing a holiday date with an eligible employee, the
greedy phase calls `Employee.add_assignment` with the Holiday duty type, and
its `self.counts[duty_type] += 1` raises `KeyError` because `counts` is
initialised without an `"HO"` key (the raise is modelled by `none`).  The
claim reflects the code's own intent — `WEIGHTS` carries an `"HO"` weight and
`summarize_period` reads `counts["HO"]` — so this is a code bug, evaluated
here at the failing input. -/
theorem holiday_run_raises :
    assignMonth [daysFromCivil 2025 11 1] [empA] 2025 11 = none ∧
    countsIncr dHO initCounts = none := by
  constructor
  · with_unfolding_all rfl
  · rfl

/-! ## Claim C2 (corrected): duty classification -/

/-- C2 counterexample: 2025-11-02 is a Sunday (Python weekday 6), is not a
holiday and is not a designated special date, yet `classify_duty` returns the
ordinary-weekday type, not Weekend — the code's day-of-week weekend is
Friday/Saturday (weekday 4/5), not Saturday/Sunday. -/
theorem classify_sunday_not_weekend :
    pyWeekday (daysFromCivil 2025 11 2) = 6 ∧
    daysFromCivil 2025 11 2 ∉ COMPANY_WEEKENDS ∧
    classifyDuty [] (daysFromCivil 2025 11 2) = dWD ∧
    classifyDuty [] (daysFromCivil 2025 11 2) ≠ dWE := by decide

/-- C2 (amended): for every calendar date, `classify_duty` follows the fixed
total priority holiday > designated special date > Thursday > weekend >
ordinary weekday, where the weekend day-of-week rule matches Friday and
Saturday (Python weekdays 4 and 5); every other non-Thursday, non-special,
non-holiday date — Sundays included — is an ordinary weekday. -/
theorem classify_priority (hol : List Day) (d : Day) :
    (d ∈ hol → classifyDuty hol d = dHO) ∧
    (d ∉ hol → d ∈ COMPANY_WEEKENDS → classifyDuty hol d = dWE) ∧
    (d ∉ hol → d ∉ COMPANY_WEEKENDS → pyWeekday d = 3 → classifyDuty hol d = dTh) ∧
    (d ∉ hol → d ∉ COMPANY_WEEKENDS → (pyWeekday d = 4 ∨ pyWeekday d = 5) →
      classifyDuty hol d = dWE) ∧
    (d ∉ hol → d ∉ COMPANY_WEEKENDS → pyWeekday d ≠ 3 → pyWeekday d ≠ 4 →
      pyWeekday d ≠ 5 → classifyDuty hol d = dWD) := by
  refine ⟨fun h1 => ?_, fun h1 h2 => ?_, fun h1 h2 h3 => ?_, fun h1 h2 h3 => ?_,
    fun h1 h2 h3 h4 h5 => ?_⟩
  · simp [classifyDuty, h1]
  · simp [classifyDuty, h1, h2]
  · simp [classifyDuty, h1, h2, h3]
  · rcases h3 with h3 | h3 <;> simp [classifyDuty, h1, h2, h3]
  · simp [classifyDuty, h1, h2, h3, h4, h5]

/-- Witness for C2's amended classification at 2025-11-01, a Saturday that is
neither a holiday nor a designated special date. -/
theorem classify_priority_witness :
    classifyDuty [] (daysFromCivil 2025 11 1) = dWE :=
  (classify_priority [] (daysFromCivil 2025 11 1)).2.2.2.1 (by decide) (by decide)
    (by decide)

/-! ## Claim C8: range normalization -/

lemma rangeDays_swap {a b : Day} (h : a ≤ b) :
    rangeDays (some b, some a) = rangeDays (some a, some b) := by
  show (if a < b then expandRange a b else expandRange b a) =
    if b < a then expandRange b a else expandRange a b
  rcases lt_or_eq_of_le h with h' | h'
  · rw [if_pos h', if_neg (Nat.not_lt.mpr h)]
  · subst h'
    rfl

/-- C8: for every employee, target month and pair of dates `a ≤ b`, giving a
raw blocked range as `{start: b, end: a}` produces exactly the same derived
blocked-date set as giving it as `{start: a, end: b}` (in any position among
the raw ranges). -/
theorem range_normalization (e : Employee) (y m : Nat)
    (L R : List (Option Day × Option Day)) (a b : Day) (h : a ≤ b) :
    (prepareForMonth { e with raw_blocked_ranges := L ++ (some b, some a) :: R } y m).blocked_days =
    (prepareForMonth { e with raw_blocked_ranges := L ++ (some a, some b) :: R } y m).blocked_days := by
  simp only [prepareForMonth, List.foldl_append, List.foldl_cons, rangeDays_swap h]

/-- Witness for C8 on a concrete reversed range. -/
theorem range_normalization_witness :
    (prepareForMonth { empA with raw_blocked_ranges := [(some 8, some 5)] } 2025 1).blocked_days =
    (prepareForMonth { empA with raw_blocked_ranges := [(some 5, some 8)] } 2025 1).blocked_days :=
  range_normalization empA 2025 1 [] [] 5 8 (by decide)

/-! ## Claim C10: the derived blocked set is not month-scoped -/

lemma foldl_append_eq_flatMap (f : α → List β) (l : List α) (b : List β) :
    l.foldl (fun acc x => acc ++ f x) b = b ++ l.flatMap f := by
  induction l generalizing b with
  | nil => simp
  | cons x xs ih => simp [ih, List.flatMap_cons, List.append_assoc]

lemma mem_expandRange {s t d : Nat} (h : s ≤ t) :
    d ∈ expandRange s t ↔ s ≤ d ∧ d ≤ t := by
  unfold expandRange
  simp only [List.mem_map, List.mem_range]
  constructor
  · rintro ⟨i, hi, rfl⟩
    exact ⟨by omega, by omega⟩
  · rintro ⟨h1, h2⟩
    exact ⟨d - s, by omega, by omega⟩

lemma mem_rangeDays {s t d : Nat} :
    d ∈ rangeDays (some s, some t) ↔ min s t ≤ d ∧ d ≤ max s t := by
  rw [Nat.min_def, Nat.max_def]
  show d ∈ (if t < s then expandRange t s else expandRange s t) ↔ _
  by_cases h : t < s
  · have hs : ¬ s ≤ t := Nat.not_le.mpr h
    rw [if_pos h, if_neg hs, if_neg hs, mem_expandRange (Nat.le_of_lt h)]
  · have hs : s ≤ t := Nat.not_lt.mp h
    rw [if_neg h, if_pos hs, if_pos hs, mem_expandRange hs]

lemma prepare_blocked_eq (e : Employee) (y m : Nat) :
    (prepareForMonth e y m).blocked_days =
      e.raw_blocked_days ++ e.raw_blocked_ranges.flatMap rangeDays ++
        (if e.observes_sabbath then sabbathDays y m else []) := by
  unfold prepareForMonth
  rw [foldl_append_eq_flatMap]
  by_cases h : e.observes_sabbath <;> simp [h]

/-- C10: after `prepare_for_month` the derived blocked set contains every raw
explicit blocked date and every date of every well-formed raw blocked range,
regardless of which month those dates fall in; conversely every member comes
from the raw dates, a raw range, or the Sabbath expansion, and only the
latter is restricted to the target month's Fridays/Saturdays. -/
theorem prepare_blocked_superset (e : Employee) (y m : Nat) :
    (∀ d ∈ e.raw_blocked_days, d ∈ (prepareForMonth e y m).blocked_days) ∧
    (∀ s t, (some s, some t) ∈ e.raw_blocked_ranges →
      ∀ d, min s t ≤ d → d ≤ max s t → d ∈ (prepareForMonth e y m).blocked_days) ∧
    (∀ d ∈ (prepareForMonth e y m).blocked_days,
      d ∈ e.raw_blocked_days ∨
      (∃ s t, (some s, some t) ∈ e.raw_blocked_ranges ∧ min s t ≤ d ∧ d ≤ max s t) ∨
      (e.observes_sabbath ∧ d ∈ monthDays y m ∧ (pyWeekday d = 4 ∨ pyWeekday d = 5))) := by
  rw [prepare_blocked_eq]
  refine ⟨?_, ?_, ?_⟩
  · intro d hd
    simp [hd]
  · intro s t hst d h1 h2
    have : d ∈ e.raw_blocked_ranges.flatMap rangeDays :=
      List.mem_flatMap.mpr ⟨(some s, some t), hst, mem_rangeDays.mpr ⟨h1, h2⟩⟩
    simp [this]
  · intro d hd
    rcases List.mem_append.mp hd with hd' | hsab
    · rcases List.mem_append.mp hd' with hraw | hrng
      · exact Or.inl hraw
      · obtain ⟨rng, hrmem, hdrng⟩ := List.mem_flatMap.mp hrng
        obtain ⟨os, ot⟩ := rng
        match os, ot with
        | some s, some t =>
          exact Or.inr (Or.inl ⟨s, t, hrmem, (mem_rangeDays.mp hdrng).1,
            (mem_rangeDays.mp hdrng).2⟩)
        | some s, none => exact absurd hdrng (by simp [rangeDays])
        | none, some t => exact absurd hdrng (by simp [rangeDays])
        | none, none => exact absurd hdrng (by simp [rangeDays])
    · by_cases hsb : e.observes_sabbath
      · rw [if_pos hsb] at hsab
        have := List.mem_filter.mp hsab
        refine Or.inr (Or.inr ⟨hsb, this.1, ?_⟩)
        have hb := this.2
        simp only [Bool.or_eq_true, decide_eq_true_eq] at hb
        exact hb
      · rw [if_neg hsb] at hsab
        exact absurd hsab (List.not_mem_nil d)

/-- Witness for C10: an explicit blocked date from June 2024 survives in the
derived set when preparing March 2025. -/
theorem prepare_blocked_superset_witness :
    daysFromCivil 2024 6 5 ∈ (prepareForMonth c10Emp 2025 3).blocked_days :=
  (prepare_blocked_superset c10Emp 2025 3).1 (daysFromCivil 2024 6 5) (by decide)

/-! ## Claim C7 (corrected): tie-breaking in the variance step -/

/-- The scan of `_pick_best_for_balance` returns the first candidate (in
candidate-list order) attaining the minimal simulated variance: only a
strictly smaller variance replaces the incumbent. -/
lemma pickBestAux_spec (allE : List Employee) (w : ℚ) :
    ∀ (rest : List Employee) (best : Employee) (bv : ℚ),
      bv = simVar allE best.name w →
      ∃ pre post,
        best :: rest = pre ++ pickBestAux allE w best bv rest :: post ∧
        (∀ x ∈ pre,
          simVar allE (pickBestAux allE w best bv rest).name w < simVar allE x.name w) ∧
        (∀ x ∈ post,
          simVar allE (pickBestAux allE w best bv rest).name w ≤ simVar allE x.name w) := by
  intro rest
  induction rest with
  | nil =>
    intro best bv _
    exact ⟨[], [], rfl, by simp, by simp⟩
  | cons cand rest ih =>
    intro best bv hbv
    have hstep : pickBestAux allE w best bv (cand :: rest) =
        if simVar allE cand.name w < bv then
          pickBestAux allE w cand (simVar allE cand.name w) rest
        else pickBestAux allE w best bv rest := rfl
    rw [hstep]
    by_cases hlt : simVar allE cand.name w < bv
    · rw [if_pos hlt]
      obtain ⟨pre, post, heq, hpre, hpost⟩ := ih cand (simVar allE cand.name w) rfl
      have hres_le_cand :
          simVar allE (pickBestAux allE w cand (simVar allE cand.name w) rest).name w ≤
            simVar allE cand.name w := by
        cases pre with
        | nil =>
          simp only [List.nil_append] at heq
          injection heq with h1 _
          rw [← h1]
        | cons p pre' =>
          simp only [List.cons_append] at heq
          injection heq with h1 _
          exact le_of_lt (h1 ▸ hpre p (List.mem_cons_self p pre'))
      refine ⟨best :: pre, post, ?_, ?_, hpost⟩
      · rw [List.cons_append, heq]
      · intro x hx
        rcases List.mem_cons.mp hx with rfl | hx'
        · exact lt_of_le_of_lt hres_le_cand (hbv ▸ hlt)
        · exact hpre x hx'
    · rw [if_neg hlt]
      obtain ⟨pre, post, heq, hpre, hpost⟩ := ih best bv hbv
      have hbvle : bv ≤ simVar allE cand.name w := not_lt.mp hlt
      cases pre with
      | nil =>
        simp only [List.nil_append] at heq
        injection heq with h1 h2
        refine ⟨[], cand :: post, ?_, by simp, ?_⟩
        · simp only [List.nil_append]
          rw [← h1, h2]
        · intro x hx
          rcases List.mem_cons.mp hx with rfl | hx'
          · rw [← h1, ← hbv]
            exact hbvle
          · exact hpost x hx'
      | cons p pre' =>
        simp only [List.cons_append] at heq
        injection heq with h1 h2
        have hres_lt_bv : simVar allE (pickBestAux allE w best bv rest).name w < bv := by
          have hh := hpre p (List.mem_cons_self p pre')
          rw [← h1, ← hbv] at hh
          exact hh
        refine ⟨best :: cand :: pre', post, ?_, ?_, hpost⟩
        · rw [List.cons_append, List.cons_append]
          exact congrArg (fun l => best :: cand :: l) h2
        · intro x hx
          rcases List.mem_cons.mp hx with rfl | hx'
          · exact hbv ▸ hres_lt_bv
          · rcases List.mem_cons.mp hx' with rfl | hx''
            · exact lt_of_lt_of_le hres_lt_bv hbvle
            · exact hpre x (h1 ▸ List.mem_cons_of_mem p hx'')

/-- C7 counterexample: with roster and candidate order [Zoe, Amy], equal
points and duty weight 1, both candidates attain the same (minimal) simulated
variance, yet `_pick_best_for_balance` selects Zoe — the first in list
order — although Amy is strictly least in employee-name ordering. -/
theorem tie_break_not_by_name :
    simVar [empZoe, empAmy] empZoe.name 1 = simVar [empZoe, empAmy] empAmy.name 1 ∧
    empAmy.name < empZoe.name ∧
    empAmy.name ≠ empZoe.name ∧
    pickBestForBalance [empZoe, empAmy] [empZoe, empAmy] 1 = some empZoe := by
  refine ⟨by with_unfolding_all decide, by with_unfolding_all decide, by decide,
    by with_unfolding_all decide⟩

/-- C7 (amended): in the near-minimal variance step, when several candidates
attain the minimal simulated population variance, the selected employee is
the first in candidate-list order among them (every earlier candidate has
strictly larger simulated variance, every later one at least as large) — not
the least in employee-name ordering. -/
theorem pick_best_first_minimal (allE : List Employee) (c : Employee)
    (cs : List Employee) (w : ℚ) :
    ∃ e pre post,
      pickBestForBalance allE (c :: cs) w = some e ∧
      c :: cs = pre ++ e :: post ∧
      (∀ x ∈ pre, simVar allE e.name w < simVar allE x.name w) ∧
      (∀ x ∈ post, simVar allE e.name w ≤ simVar allE x.name w) := by
  obtain ⟨pre, post, heq, hpre, hpost⟩ :=
    pickBestAux_spec allE w cs c (simVar allE c.name w) rfl
  exact ⟨pickBestAux allE w c (simVar allE c.name w) cs, pre, post, rfl, heq, hpre, hpost⟩

/-! ## The balancing phase is a no-op (claims C4, C5, C6)

`_optimize_balance` takes its `start_pts` snapshot at the start of the
balancing phase itself, so every month-local delta is exactly 0 at entry
(float subtraction of a value from itself is exact); no employee is ever
classified over- or under-loaded, even at the reduced tolerance, and the loop
terminates on its first iteration without performing any swap. -/

lemma dictFind?_map_self {α : Type} (f : Employee → α) :
    ∀ (es : List Employee), (es.map Employee.name).Nodup →
      ∀ e ∈ es, dictFind? e.name (es.map fun x => (x.name, f x)) = some (f e) := by
  intro es
  induction es with
  | nil => intro _ e he; exact absurd he (List.not_mem_nil e)
  | cons x xs ih =>
    intro hn e he
    simp only [List.map_cons, List.nodup_cons] at hn
    rw [List.map_cons]
    show (if (x.name, f x).1 = e.name then some (x.name, f x).2
      else dictFind? e.name (xs.map fun x => (x.name, f x))) = some (f e)
    by_cases hx : x.name = e.name
    · rw [if_pos hx]
      rcases List.mem_cons.mp he with rfl | hmem
      · rfl
      · exfalso
        apply hn.1
        rw [hx]
        exact List.mem_map.mpr ⟨e, hmem, rfl⟩
    · rw [if_neg hx]
      rcases List.mem_cons.mp he with rfl | hmem
      · exact absurd rfl hx
      · exact ih hn.2 e hmem

lemma monthPoints_zero {es : List Employee} (hn : (es.map Employee.name).Nodup) :
    ∀ q ∈ monthPoints es (es.map fun e => (e.name, e.points)), q.2 = 0 := by
  intro q hq
  obtain ⟨e, he, rfl⟩ := List.mem_map.mp hq
  show e.points - (dictFind? e.name (es.map fun x => (x.name, x.points))).getD 0 = 0
  rw [dictFind?_map_self (fun x => x.points) es hn e he]
  simp

lemma listMean_zero {l : List ℚ} (h : ∀ x ∈ l, x = 0) : listMean l = 0 := by
  unfold listMean
  by_cases hl : l.length = 0
  · rw [if_pos hl]
  · rw [if_neg hl, List.sum_eq_zero h, zero_div]

lemma obLoop_noop {startPts : List (String × ℚ)} {blocked : List (String × List Day)}
    {days : List Day} {sched : Schedule} {es : List Employee} (fuel : Nat)
    (h : ∀ q ∈ monthPoints es startPts, q.2 = 0) :
    obLoop startPts blocked days fuel sched es = some (sched, es) := by
  cases fuel with
  | zero => rfl
  | succ n =>
    have havg : listMean ((monthPoints es startPts).map Prod.snd) = 0 := by
      apply listMean_zero
      intro x hx
      obtain ⟨q, hq, rfl⟩ := List.mem_map.mp hx
      exact h q hq
    have hfo : ∀ c : ℚ, 0 < c →
        (monthPoints es startPts).filter
          (fun q => decide (listMean ((monthPoints es startPts).map Prod.snd) + c < q.2)) = [] := by
      intro c hc
      apply List.filter_eq_nil_iff.mpr
      intro q hq
      rw [havg, h q hq]
      simp only [decide_eq_true_eq]
      intro hlt
      linarith
    have hfu : ∀ c : ℚ, 0 < c →
        (monthPoints es startPts).filter
          (fun q => decide (q.2 < listMean ((monthPoints es startPts).map Prod.snd) - c)) = [] := by
      intro c hc
      apply List.filter_eq_nil_iff.mpr
      intro q hq
      rw [havg, h q hq]
      simp only [decide_eq_true_eq]
      intro hlt
      linarith
    have htol : (0 : ℚ) < BALANCE_TOLERANCE := by norm_num [BALANCE_TOLERANCE]
    have htol3 : (0 : ℚ) < BALANCE_TOLERANCE / 3 := by norm_num [BALANCE_TOLERANCE]
    unfold obLoop
    cases hp : (monthPoints es startPts).isEmpty with
    | true => simp [hp]
    | false =>
      simp only [hp, hfo BALANCE_TOLERANCE htol, hfu BALANCE_TOLERANCE htol,
        hfo (BALANCE_TOLERANCE / 3) htol3, hfu (BALANCE_TOLERANCE / 3) htol3,
        List.map_nil, List.isEmpty_nil, Bool.or_self, Bool.false_eq_true, if_false,
        Bool.or_true, Bool.true_or, if_true]

lemma optimizeBalance_noop {es : List Employee} {sched : Schedule} {y m fuel : Nat}
    (hn : (es.map Employee.name).Nodup) :
    optimizeBalance es sched y m fuel = some (sched, es) :=
  obLoop_noop fuel (monthPoints_zero hn)

/-- C4: for every greedy-produced schedule and employee population (with the
data model's unique names), the population's month-local workload variance —
computed from each employee's points delta since the balancing phase
started — after `_optimize_balance` terminates is less than or equal to its
value before the phase ran.  (It holds exactly: the `start_pts` snapshot is
taken at phase start, so every delta is 0, no employee is classified over- or
under-loaded, and no move is ever executed.) -/
theorem balance_variance_nonincreasing (emps : List Employee) (sched : Schedule)
    (y m fuel : Nat) (out : Schedule × List Employee)
    (hn : (emps.map Employee.name).Nodup)
    (h : optimizeBalance emps sched y m fuel = some out) :
    monthVariance out.2 (emps.map fun e => (e.name, e.points)) ≤
      monthVariance emps (emps.map fun e => (e.name, e.points)) := by
  rw [optimizeBalance_noop hn] at h
  injection h with h
  rw [← h]

/-- Witness for C4 on a one-employee population. -/
theorem balance_variance_witness :
    monthVariance [empA] ([empA].map fun e => (e.name, e.points)) ≤
      monthVariance [empA] ([empA].map fun e => (e.name, e.points)) :=
  balance_variance_nonincreasing [empA] [] 2025 2 50 ([], [empA]) (by decide)
    (optimizeBalance_noop (by decide))

/-! ## Greedy-phase invariants (claims C5, C6) -/

lemma pickBestAux_mem (allE : List Employee) (w : ℚ) :
    ∀ (rest : List Employee) (best : Employee) (bv : ℚ),
      pickBestAux allE w best bv rest ∈ best :: rest := by
  intro rest
  induction rest with
  | nil => intro best bv; exact List.mem_cons_self _ _
  | cons cand rest ih =>
    intro best bv
    show (if simVar allE cand.name w < bv then
        pickBestAux allE w cand (simVar allE cand.name w) rest
      else pickBestAux allE w best bv rest) ∈ best :: cand :: rest
    by_cases hlt : simVar allE cand.name w < bv
    · rw [if_pos hlt]
      exact List.mem_cons_of_mem best (ih cand (simVar allE cand.name w))
    · rw [if_neg hlt]
      rcases List.mem_cons.mp (ih best bv) with h | h
      · rw [h]; exact List.mem_cons_self _ _
      · exact List.mem_cons_of_mem best (List.mem_cons_of_mem cand h)

lemma pickBestForBalance_mem {allE cs : List Employee} {w : ℚ} {e : Employee}
    (h : pickBestForBalance allE cs w = some e) : e ∈ cs := by
  cases cs with
  | nil => simp [pickBestForBalance] at h
  | cons c cs' =>
    simp only [pickBestForBalance] at h
    injection h with h
    rw [← h]
    exact pickBestAux_mem allE w cs' c _

lemma head?_mem {l : List α} {a : α} (h : l.head? = some a) : a ∈ l := by
  cases l with
  | nil => simp at h
  | cons x xs =>
    injection h with h
    rw [← h]
    exact List.mem_cons_self x xs

lemma pickLowestPoints_mem {allE cs : List Employee} {w : ℚ} {excl : List String}
    {e : Employee} (h : pickLowestPoints allE cs w excl = some e) :
    e ∈ cs ∧ e.name ∉ excl := by
  unfold pickLowestPoints at h
  cases hpool : cs.filter (fun x => decide (x.name ∉ excl)) with
  | nil => simp only [hpool] at h; exact absurd h (by simp)
  | cons p ps =>
    simp only [hpool] at h
    have hmem : e ∈ p :: ps := by
      split at h
      · exact List.mem_of_mem_filter (pickBestForBalance_mem h)
      · exact List.mem_of_mem_filter (head?_mem h)
    have h2 : e ∈ cs.filter (fun x => decide (x.name ∉ excl)) := by
      rw [hpool]; exact hmem
    have h3 := List.mem_filter.mp h2
    exact ⟨h3.1, by simpa using h3.2⟩

lemma updateEmp_cons (x : Employee) (xs : List Employee) (e' : Employee) :
    updateEmp (x :: xs) e' =
      (if x.name = e'.name then e' else x) :: updateEmp xs e' := rfl

lemma updateEmp_id {es : List Employee} {e' : Employee}
    (h : ∀ y ∈ es, y.name ≠ e'.name) : updateEmp es e' = es := by
  induction es with
  | nil => rfl
  | cons x xs ih =>
    rw [updateEmp_cons, if_neg (h x (List.mem_cons_self x xs)),
      ih fun y hy => h y (List.mem_cons_of_mem x hy)]

lemma mem_updateEmp_of_ne {es : List Employee} {e' x : Employee}
    (hx : x ∈ es) (hne : x.name ≠ e'.name) : x ∈ updateEmp es e' := by
  have h1 : (if x.name = e'.name then e' else x) ∈
      es.map (fun e => if e.name = e'.name then e' else e) :=
    List.mem_map_of_mem _ hx
  rw [if_neg hne] at h1
  exact h1

lemma updateEmp_map_nameBlocked {es : List Employee} {p e' : Employee}
    (hn : (es.map Employee.name).Nodup) (hp : p ∈ es)
    (hname : e'.name = p.name) (hbl : e'.blocked_days = p.blocked_days) :
    (updateEmp es e').map nameBlocked = es.map nameBlocked := by
  induction es with
  | nil => rfl
  | cons x xs ih =>
    simp only [List.map_cons, List.nodup_cons] at hn
    rw [updateEmp_cons, List.map_cons, List.map_cons]
    by_cases hx : x.name = e'.name
    · have hpx : p = x := by
        rcases List.mem_cons.mp hp with rfl | hmem
        · rfl
        · exfalso
          apply hn.1
          rw [hx, hname]
          exact List.mem_map.mpr ⟨p, hmem, rfl⟩
      rw [if_pos hx]
      have hrest : updateEmp xs e' = xs := by
        apply updateEmp_id
        intro y hy hyname
        apply hn.1
        rw [hx, ← hyname]
        exact List.mem_map.mpr ⟨y, hy, rfl⟩
      rw [hrest]
      show nameBlocked e' :: xs.map nameBlocked = nameBlocked x :: xs.map nameBlocked
      unfold nameBlocked
      rw [hname, hbl, hpx]
    · rw [if_neg hx]
      have hpmem : p ∈ xs := by
        rcases List.mem_cons.mp hp with rfl | hmem
        · exact absurd hname.symm hx
        · exact hmem
      rw [ih hn.2 hpmem]

lemma map_name_of_map_nameBlocked {es1 es2 : List Employee}
    (h : es1.map nameBlocked = es2.map nameBlocked) :
    es1.map Employee.name = es2.map Employee.name := by
  have h2 := congrArg (List.map Prod.fst) h
  simpa [List.map_map, Function.comp, nameBlocked] using h2

/-- Soundness of one greedy day: the day record's assignees are distinct, each
comes from an employee who was eligible (hence not blocked) that day, and the
employees' names and blocked sets are unchanged. -/
lemma assignDay_sound {hol : List Day} {es : List Employee} {d : Day}
    {rec : DayRec} {es' : List Employee}
    (hn : (es.map Employee.name).Nodup)
    (h : assignDay hol es d = some (rec, es')) :
    (rec.map Prod.snd).Nodup ∧
    (∀ q ∈ rec, ∃ c ∈ es, c.name = q.2 ∧ d ∉ c.blocked_days) ∧
    es'.map nameBlocked = es.map nameBlocked := by
  unfold assignDay at h
  dsimp only at h
  split at h
  next heq =>
    injection h with h
    injection h with h1 h2
    refine ⟨?_, ?_, ?_⟩
    · rw [← h1]; simp
    · rw [← h1]; intro q hq; exact absurd hq (List.not_mem_nil q)
    · rw [← h2]
  next p heq =>
    obtain ⟨hpc, _⟩ := pickLowestPoints_mem heq
    unfold eligible at hpc
    have hpes : p ∈ es := List.mem_of_mem_filter hpc
    have hpav : isAvailable p d = true := (List.mem_filter.mp hpc).2
    have hpbl : d ∉ p.blocked_days := isAvailable_not_blocked hpav
    split at h
    next heq2 => exact absurd h (by simp)
    next p' heq2 =>
      obtain ⟨_, _, hName, hBl⟩ := addAssignment_some heq2
      have hnb1 : (updateEmp es p').map nameBlocked = es.map nameBlocked :=
        updateEmp_map_nameBlocked hn hpes hName hBl
      split at h
      next hwe =>
        split at h
        next heq3 =>
          injection h with h
          injection h with h1 h2
          refine ⟨?_, ?_, ?_⟩
          · rw [← h1]; simp [dictInsert]
          · rw [← h1]
            intro q hq
            have hqe : q = (classifyDuty hol d, p.name) := by
              rcases List.mem_cons.mp hq with h' | h'
              · exact h'
              · exact absurd h' (List.not_mem_nil q)
            rw [hqe]
            exact ⟨p, hpes, rfl, hpbl⟩
          · rw [← h2]; exact hnb1
        next b heq3 =>
          obtain ⟨hbc, hbni⟩ := pickLowestPoints_mem heq3
          have hbne : b.name ≠ p.name := by simpa using hbni
          obtain ⟨e0, he0, hbe0⟩ := List.mem_map.mp hbc
          have hb0 : b = e0 := by
            by_cases h0 : e0.name = p.name
            · rw [if_pos h0] at hbe0
              rw [← hbe0] at hbne
              exact absurd hName hbne
            · rw [if_neg h0] at hbe0
              exact hbe0.symm
          unfold eligible at he0
          have hbes : b ∈ es := hb0 ▸ List.mem_of_mem_filter he0
          have hbav : isAvailable b d = true := hb0 ▸ (List.mem_filter.mp he0).2
          have hbbl : d ∉ b.blocked_days := isAvailable_not_blocked hbav
          split at h
          next heq4 => exact absurd h (by simp)
          next b' heq4 =>
            injection h with h
            injection h with h1 h2
            obtain ⟨_, _, hName2, hBl2⟩ := addAssignment_some heq4
            have hdne : classifyDuty hol d ≠ dB := by rw [hwe]; decide
            have hrecval :
                dictInsert dB b.name (dictInsert (classifyDuty hol d) p.name []) =
                  [(classifyDuty hol d, p.name), (dB, b.name)] := by
              show (if classifyDuty hol d = dB then [((dB : String), b.name)]
                else (classifyDuty hol d, p.name) :: dictInsert dB b.name []) = _
              rw [if_neg hdne]
              rfl
            rw [hrecval] at h1
            refine ⟨?_, ?_, ?_⟩
            · rw [← h1]
              simp [Ne.symm hbne]
            · rw [← h1]
              intro q hq
              rcases List.mem_cons.mp hq with rfl | hq'
              · exact ⟨p, hpes, rfl, hpbl⟩
              · have hqe : q = (dB, b.name) := by simpa using hq'
                rw [hqe]
                exact ⟨b, hbes, rfl, hbbl⟩
            · rw [← h2]
              have hn1 : ((updateEmp es p').map Employee.name).Nodup := by
                rw [map_name_of_map_nameBlocked hnb1]
                exact hn
              have hbmem1 : b ∈ updateEmp es p' := by
                apply mem_updateEmp_of_ne hbes
                rw [hName]
                exact hbne
              have hnb2 : (updateEmp (updateEmp es p') b').map nameBlocked =
                  (updateEmp es p').map nameBlocked :=
                updateEmp_map_nameBlocked hn1 hbmem1 hName2 hBl2
              rw [hnb2]
              exact hnb1
      next hwe =>
        injection h with h
        injection h with h1 h2
        refine ⟨?_, ?_, ?_⟩
        · rw [← h1]; simp [dictInsert]
        · rw [← h1]
          intro q hq
          have hqe : q = (classifyDuty hol d, p.name) := by
            rcases List.mem_cons.mp hq with h' | h'
            · exact h'
            · exact absurd h' (List.not_mem_nil q)
          rw [hqe]
          exact ⟨p, hpes, rfl, hpbl⟩
        · rw [← h2]; exact hnb1

lemma greedyStep_none (hol : List Day) (days : List Day) :
    days.foldl (greedyStep hol) none = none := by
  induction days with
  | nil => rfl
  | cons d ds ih => exact ih

lemma greedyFold_sound {hol : List Day} {emps0 : List Employee}
    (hn0 : (emps0.map Employee.name).Nodup) :
    ∀ (days : List Day) (sched : Schedule) (es : List Employee),
      es.map nameBlocked = emps0.map nameBlocked →
      (∀ p ∈ sched, GoodRec emps0 p) →
      ∀ out, days.foldl (greedyStep hol) (some (sched, es)) = some out →
        out.2.map nameBlocked = emps0.map nameBlocked ∧ ∀ p ∈ out.1, GoodRec emps0 p := by
  intro days
  induction days with
  | nil =>
    intro sched es hnb hgood out hout
    injection hout with hout
    rw [← hout]
    exact ⟨hnb, hgood⟩
  | cons d ds ih =>
    intro sched es hnb hgood out hout
    rw [List.foldl_cons] at hout
    cases hstep : assignDay hol es d with
    | none =>
      rw [show greedyStep hol (some (sched, es)) d = none from by
        simp [greedyStep, hstep]] at hout
      rw [greedyStep_none] at hout
      exact absurd hout (by simp)
    | some res =>
      obtain ⟨rec1, es1⟩ := res
      rw [show greedyStep hol (some (sched, es)) d = some (sched ++ [(d, rec1)], es1) from by
        simp [greedyStep, hstep]] at hout
      have hnes : (es.map Employee.name).Nodup := by
        rw [map_name_of_map_nameBlocked hnb]
        exact hn0
      obtain ⟨hrecnd, hreccl, hnb1⟩ := assignDay_sound hnes hstep
      refine ih (sched ++ [(d, rec1)]) es1 (hnb1.trans hnb) ?_ out hout
      intro p hp
      rcases List.mem_append.mp hp with hp' | hp'
      · exact hgood p hp'
      · have hpd : p = (d, rec1) := by simpa using hp'
        rw [hpd]
        constructor
        · exact hrecnd
        · intro q hq e he hqe
          obtain ⟨c, hc, hcn, hcb⟩ := hreccl q hq
          have h1 : (c.name, c.blocked_days) ∈ es.map nameBlocked :=
            List.mem_map.mpr ⟨c, hc, rfl⟩
          rw [hnb] at h1
          obtain ⟨e0, he0, he0eq⟩ := List.mem_map.mp h1
          have he0n : e0.name = c.name := congrArg Prod.fst he0eq
          have he0b : e0.blocked_days = c.blocked_days := congrArg Prod.snd he0eq
          have hee0 : e = e0 :=
            List.inj_on_of_nodup_map hn0 he he0
              (show e.name = e0.name by rw [he0n, hcn, hqe])
          show d ∉ e.blocked_days
          rw [hee0, he0b]
          exact hcb

lemma initialAssignment_sound {hol : List Day} {emps : List Employee} {y m : Nat}
    {sched : Schedule} {es' : List Employee}
    (hn : (emps.map Employee.name).Nodup)
    (h : initialAssignment hol emps y m = some (sched, es')) :
    es'.map nameBlocked = emps.map nameBlocked ∧ ∀ p ∈ sched, GoodRec emps p :=
  greedyFold_sound hn (monthDays y m) [] emps rfl
    (fun p hp => absurd hp (List.not_mem_nil p)) (sched, es') h

/-- `assign_month` either returns the empty schedule (empty roster) or
returns the greedy phase's output unchanged: with unique names the balancing
phase performs no move. -/
lemma assignMonth_cases {hol : List Day} {emps : List Employee} {y m : Nat}
    {out : Schedule × List Employee}
    (hn : (emps.map Employee.name).Nodup)
    (h : assignMonth hol emps y m = some out) :
    out.1 = [] ∨ initialAssignment hol emps y m = some out := by
  unfold assignMonth at h
  split at h
  next he =>
    injection h with h
    rw [← h]
    exact Or.inl rfl
  next he =>
    split at h
    next heq => exact absurd h (by simp)
    next r heq =>
      have hnr : (r.2.map Employee.name).Nodup := by
        have hs := initialAssignment_sound hn (show initialAssignment hol emps y m = some (r.1, r.2) from heq)
        rw [map_name_of_map_nameBlocked hs.1]
        exact hn
      rw [optimizeBalance_noop hnr] at h
      injection h with h
      rw [← h]
      exact Or.inr heq

/-- C5: in every schedule returned by `assign_month` (on a roster with the
data model's unique names), the same employee name appears under at most one
duty type within each date's mapping: the greedy phase assigns the weekend
backup from a pool that excludes the primary's name, and the balancing
phase's `feasible` check rejects targets already holding a duty that day (it
executes no move at all). -/
theorem no_double_booking (hol : List Day) (emps : List Employee) (y m : Nat)
    (sched : Schedule) (emps' : List Employee) (day : Day) (rec : DayRec)
    (hn : (emps.map Employee.name).Nodup)
    (h : assignMonth hol emps y m = some (sched, emps'))
    (hd : (day, rec) ∈ sched) :
    (rec.map Prod.snd).Nodup := by
  rcases assignMonth_cases hn h with h1 | h1
  · rw [show sched = [] from h1] at hd
    exact absurd hd (List.not_mem_nil _)
  · exact ((initialAssignment_sound hn h1).2 (day, rec) hd).1

/-- Witness for C5 on the February 2025 single-employee run: the first day's
record assigns the weekend primary to `A` and nobody else. -/
theorem no_double_booking_witness :
    (([(dWE, nameA)] : DayRec).map Prod.snd).Nodup :=
  no_double_booking [] [empA] 2025 2 demoOut.1 demoOut.2 (daysFromCivil 2025 2 1)
    [(dWE, nameA)] (by decide) (by with_unfolding_all rfl)
    (by with_unfolding_all decide)

/-- C6: for every employee and every date in that employee's derived blocked
set, the employee never appears as an assignee for that date in a schedule
returned by `assign_month`: the greedy eligibility filter excludes blocked
dates and every balancing move's feasibility check rejects targets blocked on
the date (no move is executed at all). -/
theorem blocked_day_exclusion (hol : List Day) (emps : List Employee) (y m : Nat)
    (sched : Schedule) (emps' : List Employee) (e : Employee) (day : Day)
    (rec : DayRec) (duty : String)
    (hn : (emps.map Employee.name).Nodup)
    (h : assignMonth hol emps y m = some (sched, emps'))
    (he : e ∈ emps)
    (hd : (day, rec) ∈ sched)
    (hq : (duty, e.name) ∈ rec) :
    day ∉ e.blocked_days := by
  rcases assignMonth_cases hn h with h1 | h1
  · rw [show sched = [] from h1] at hd
    exact absurd hd (List.not_mem_nil _)
  · exact ((initialAssignment_sound hn h1).2 (day, rec) hd).2 (duty, e.name) hq e he rfl

/-- Witness for C6 on the February 2025 single-employee run. -/
theorem blocked_day_exclusion_witness :
    daysFromCivil 2025 2 1 ∉ empA.blocked_days :=
  blocked_day_exclusion [] [empA] 2025 2 demoOut.1 demoOut.2 empA
    (daysFromCivil 2025 2 1) [(dWE, nameA)] dWE (by decide)
    (by with_unfolding_all rfl) (by decide) (by with_unfolding_all decide)
    (by decide)

end OnDuty
